import Mathlib

/-!
Verification of the gofeat in-process feature-computation engine.

The development shallowly embeds the Go sources: instants (`time.Time`) are
modelled as `Int` nanosecond offsets from the Go zero time, so
`time.Time{}.IsZero()` corresponds to `timestamp = 0`, `Before` to `<` and
`After` to `>`; durations (`time.Duration`) are likewise `Int` nanosecond
counts.  Go `float64` arithmetic is modelled exactly over `ℚ` (and over `ℝ`
where the code calls `math.Log2` / `math.Sqrt`); the claims proved here only
depend on exact values that IEEE doubles represent exactly.  Go's
`sort.Slice` is unstable, so the order of equal-timestamp events after a
batch push is implementation-defined; the model fixes the stable tie order
(first-pushed first).  `sort.Search` performs binary search for the first
index satisfying a monotone predicate, which on the sorted per-entity log
agrees with `List.findIdx`; it is modelled as such.
-/

/-- A Go `time.Location` as far as `Store.validateEvent` observes it:
either `time.UTC` or some other location. -/
inductive Loc where
  | utc : Loc
  | named : String → Loc
deriving DecidableEq

/-- A dynamically-typed Go payload value (`any`).  All Go numeric widths
accepted by `toFloat64` are collapsed into the two constructors `vInt`
(for `int`, `int32`, `int64`) and `vFloat` (for `float32`, `float64`). -/
inductive GoVal where
  | vInt : Int → GoVal
  | vFloat : ℚ → GoVal
  | vStr : String → GoVal
  | vBool : Bool → GoVal
deriving DecidableEq

/-- Model of `Event` from event.go: a timestamp plus a payload map.  `loc` records
the timestamp's `Location()`, used only by `Store.validateEvent`. -/
structure Event where
  timestamp : Int
  loc : Loc
  data : List (String × GoVal)
deriving DecidableEq

/-- The single-event path of `memoryStorage.Push`: binary insertion at the
first index whose event's timestamp is `After` the new one (`sort.Search`
on the sorted log), i.e. the new event goes after all events with an equal
or earlier timestamp. -/
def insertByTs (e : Event) : List Event → List Event
  | [] => [e]
  | x :: xs => if e.timestamp < x.timestamp then e :: x :: xs else x :: insertByTs e xs

/-- The batch path's `sort.Slice(..., Timestamp.Before)`, modelled as a
stable insertion sort by timestamp (Go's `sort.Slice` is unstable; the
relative order of equal timestamps is implementation-defined and the model
fixes it to be stable). -/
def sortByTs (l : List Event) : List Event :=
  l.foldl (fun acc e => insertByTs e acc) []

/-- One `memoryStorage.Push` call on a single entity's log: a singleton
call uses binary insertion, any other call appends then sorts once. -/
def memPushCall (events : List Event) (log : List Event) : List Event :=
  match events with
  | [e] => insertByTs e log
  | _ => sortByTs (log ++ events)

/-- A sequence of `Push` calls to one entity, applied to the initially
empty log. -/
def applyCalls (calls : List (List Event)) : List Event :=
  calls.foldl (fun log c => memPushCall c log) []

/-- The TTL cutoff computed by both `memoryStorage.Get` (variant 1) and
`Store.GetAt` (variant 2): the zero time unless the TTL is positive, in
which case `at.Add(-ttl)`. -/
def ttlCutoff (ttl t : Int) : Int := if 0 < ttl then t - ttl else 0

/-- The keep-predicate of variant 1's `memoryStorage.Get` loop: skip events
`After` the query instant, and — when the cutoff is non-zero — skip events
not `After` the cutoff. -/
def memGetKeep (ttl t : Int) (e : Event) : Bool :=
  decide (e.timestamp ≤ t) &&
    (decide (ttlCutoff ttl t = 0) || decide (ttlCutoff ttl t < e.timestamp))

/-- Model of `memoryStorage.Get` (variant 1) on one entity's log: the loop appending
every kept event in order is `List.filter` of the keep-predicate. -/
def memGet (ttl t : Int) (l : List Event) : List Event :=
  l.filter (memGetKeep ttl t)

/-- The keep-predicate of variant 2's orchestrator-side filter inside
`Store.GetAt`: skip events `After` the query instant, and — when the
cutoff is non-zero — skip events `Before` the cutoff. -/
def storeGetAtKeep (ttl t : Int) (e : Event) : Bool :=
  decide (e.timestamp ≤ t) &&
    (decide (ttlCutoff ttl t = 0) || decide (ttlCutoff ttl t ≤ e.timestamp))

/-- The per-entity trim of `memoryStorage.Evict`: `sort.Search` for the
first index whose timestamp is not `Before` the cutoff (binary search,
agreeing with `findIdx` since the log is sorted), then a prefix drop. -/
def memEvict (before : Int) (l : List Event) : List Event :=
  let idx := l.findIdx (fun e => decide (before ≤ e.timestamp))
  if 0 < idx then l.drop idx else l

/-- The scan inside `slidingWindow.Select`: return the suffix starting at
the first event whose timestamp is not `Before` the cutoff. -/
def slidingLoop (cutoff : Int) : List Event → List Event
  | [] => []
  | e :: rest => if cutoff ≤ e.timestamp then e :: rest else slidingLoop cutoff rest

/-- Model of `slidingWindow.Select`: cutoff is `t.Add(-duration)`. -/
def slidingSelect (d : Int) (events : List Event) (t : Int) : List Event :=
  slidingLoop (t - d) events

/-- Model of `lifetimeWindow.Select`, binary-search form: `sort.Search` for the
first index whose timestamp is `After` `t` (= `findIdx` on the sorted
input), then take that prefix. -/
def lifetimeSelect (events : List Event) (t : Int) : List Event :=
  events.take (events.findIdx (fun e => decide (t < e.timestamp)))

/-- The backward scan of the second `lifetimeWindow.Select`, expressed on
the reversed list: the first (originally last) event not `After` `t` ends
the scan and the prefix up to and including it is returned. -/
def lifetimeScan (t : Int) : List Event → List Event
  | [] => []
  | e :: rest => if e.timestamp ≤ t then (e :: rest).reverse else lifetimeScan t rest

/-- Model of `lifetimeWindow.Select`, backward-scan form. -/
def lifetimeSelect2 (events : List Event) (t : Int) : List Event :=
  lifetimeScan t events.reverse

/-- A configured feature: a name, a pluggable window, and an aggregator
factory producing a fresh accumulator (initial state `init` of some state
type `St`, one `add` step per selected event, and a finalizer `result`). -/
structure Feature (V : Type) where
  name : String
  window : List Event → Int → List Event
  St : Type
  init : St
  add : St → Event → St
  result : St → V

/-- One feature's value inside `Store.GetAt`: select with the feature's
window, fold a fresh aggregator over the selection, finalize. -/
def featureValue {V : Type} (f : Feature V) (events : List Event) (t : Int) : V :=
  f.result ((f.window events t).foldl f.add f.init)

/-- Model of `Store.GetAt` (variant 1) over one entity's log: fetch the
TTL-and-`t`-bounded events from `memoryStorage.Get`, then compute every
configured feature independently against them. -/
def getAtValues {V : Type} (fs : List (Feature V)) (ttl : Int) (log : List Event) (t : Int) :
    List (String × V) :=
  fs.map fun f => (f.name, featureValue f (memGet ttl t log) t)

/-- Model of `Store.validateEvent`: the timestamp's location must be `time.UTC`. -/
def validateEvent (e : Event) : Bool := decide (e.loc = Loc.utc)

/-- The whole in-memory backend state: one log per entity identifier. -/
def GoState := String → List Event

/-- The initially empty backend. -/
def emptyState : GoState := fun _ => []

/-- Model of `memoryStorage.Push`: `LoadOrStore` the entity's log, then apply the
single-or-batch insertion under that entity's lock. -/
def memPushState (σ : GoState) (id : String) (events : List Event) : GoState :=
  fun k => if k = id then memPushCall events (σ k) else σ k

/-- Model of `Store.Push` (variant 1): validate every event in order, returning the
error for the first invalid one before any storage mutation; otherwise
delegate the whole batch to `memoryStorage.Push`. -/
def storePush (σ : GoState) (id : String) (events : List Event) :
    Option String × GoState :=
  match events.findIdx? (fun e => ! validateEvent e) with
  | some i => (some ("invalid event " ++ toString i ++ ": timestamp must be in UTC"), σ)
  | none => (none, memPushState σ id events)

/-- The sortedness invariant of a per-entity log: non-decreasing by
timestamp. -/
@[reducible] def TsSorted (l : List Event) : Prop :=
  l.Pairwise fun a b => a.timestamp ≤ b.timestamp

/-- Model of `toFloat64`: the numeric-coercion table shared by the aggregators.
Every Go integer representation coerces; anything else is rejected. -/
def toFloat64 : GoVal → Option ℚ
  | .vFloat q => some q
  | .vInt n => some (n : ℚ)
  | _ => none

/-- Model of `time.Minute` in nanoseconds, the divisor inside `Duration.Minutes()`. -/
def nsPerMinute : Int := 60000000000

/-- Model of `countAgg` (field-agnostic event counter). -/
structure countAgg where
  n : Int

/-- Model of `Count()`: a fresh counter (Go zero value). -/
def Count : countAgg := ⟨0⟩

def countAgg.Add (a : countAgg) (_ : List (String × GoVal)) : countAgg :=
  ⟨a.n + 1⟩

def countAgg.Result (a : countAgg) : Int := a.n

/-- Model of `sumAgg`. -/
structure sumAgg where
  sum : ℚ
  field : String

/-- The `Sum(field)` factory applied: fresh accumulator with zero sum
(named `sumAgg.new` here since `Sum` is taken by the ambient library). -/
def sumAgg.new (field : String) : sumAgg := ⟨0, field⟩

def sumAgg.Add (a : sumAgg) (data : List (String × GoVal)) : sumAgg :=
  match data.lookup a.field with
  | none => a
  | some v =>
    match toFloat64 v with
    | some f => { a with sum := a.sum + f }
    | none => a

def sumAgg.Result (a : sumAgg) : ℚ := a.sum

/-- Model of `minAgg`. -/
structure minAgg where
  min : ℚ
  valid : Bool
  field : String

/-- The `Min(field)` factory applied. -/
def minAgg.new (field : String) : minAgg := ⟨0, false, field⟩

def minAgg.Add (a : minAgg) (data : List (String × GoVal)) : minAgg :=
  match data.lookup a.field with
  | none => a
  | some v =>
    match toFloat64 v with
    | some f => if !a.valid || f < a.min then { a with min := f, valid := true } else a
    | none => a

def minAgg.Result (a : minAgg) : ℚ := if !a.valid then 0 else a.min

/-- Model of `maxAgg`. -/
structure maxAgg where
  max : ℚ
  valid : Bool
  field : String

/-- The `Max(field)` factory applied. -/
def maxAgg.new (field : String) : maxAgg := ⟨0, false, field⟩

def maxAgg.Add (a : maxAgg) (data : List (String × GoVal)) : maxAgg :=
  match data.lookup a.field with
  | none => a
  | some v =>
    match toFloat64 v with
    | some f => if !a.valid || a.max < f then { a with max := f, valid := true } else a
    | none => a

def maxAgg.Result (a : maxAgg) : ℚ := if !a.valid then 0 else a.max

/-- Model of `lastAgg`; the Go `any` zero value `nil` is `none`. -/
structure lastAgg where
  last : Option GoVal
  field : String

/-- Model of `Last(field)` factory applied. -/
def Last (field : String) : lastAgg := ⟨none, field⟩

def lastAgg.Add (a : lastAgg) (data : List (String × GoVal)) : lastAgg :=
  match data.lookup a.field with
  | none => a
  | some v => { a with last := some v }

def lastAgg.Result (a : lastAgg) : Option GoVal := a.last

/-- Model of `countDistinctAgg`; the `map[any]struct{}` set is a duplicate-free
list of keys. -/
structure countDistinctAgg where
  seen : List GoVal
  field : String

/-- Model of `CountDistinct(field)` factory applied: empty set. -/
def CountDistinct (field : String) : countDistinctAgg := ⟨[], field⟩

def countDistinctAgg.Add (a : countDistinctAgg) (data : List (String × GoVal)) :
    countDistinctAgg :=
  match data.lookup a.field with
  | none => a
  | some v => if v ∈ a.seen then a else { a with seen := v :: a.seen }

def countDistinctAgg.Result (a : countDistinctAgg) : Int := a.seen.length

/-- Model of `velocityAgg` from aggregator_fraud.go. -/
structure velocityAgg where
  count : Int
  window : Int
  firstTime : Int
  lastTime : Int

/-- Model of `Velocity(window)` factory applied: zero count, zero-time trackers. -/
def Velocity (window : Int) : velocityAgg := ⟨0, window, 0, 0⟩

/-- Model of `velocityAgg.Add`: bump the count; take the timestamp as first/last
whenever the respective tracker `IsZero` or is improved on. -/
def velocityAgg.Add (a : velocityAgg) (e : Event) : velocityAgg :=
  { a with
    count := a.count + 1
    firstTime :=
      if a.firstTime = 0 ∨ e.timestamp < a.firstTime then e.timestamp else a.firstTime
    lastTime :=
      if a.lastTime = 0 ∨ a.lastTime < e.timestamp then e.timestamp else a.lastTime }

/-- Model of `velocityAgg.Result`: events per minute over the tracked span, with the
window's minute-length as fallback divisor when the span is zero. -/
def velocityAgg.Result (a : velocityAgg) : ℚ :=
  if a.count = 0 ∨ a.window = 0 then 0
  else
    let duration : Int := a.lastTime - a.firstTime
    if duration = 0 then (a.count : ℚ) / ((a.window : ℚ) / (nsPerMinute : ℚ))
    else
      let minutes : ℚ := (duration : ℚ) / (nsPerMinute : ℚ)
      if minutes = 0 then (a.count : ℚ) else (a.count : ℚ) / minutes

/-- Model of `entropyAgg`; the `map[any]int` of occurrence counts is a duplicate-free
association list. -/
structure entropyAgg where
  field : String
  counts : List (GoVal × Nat)
  total : Nat

/-- Model of `Entropy(field)` factory applied: empty counts. -/
def Entropy (field : String) : entropyAgg := ⟨field, [], 0⟩

/-- Model of `counts[v]++` on the association list. -/
def bumpCount (v : GoVal) : List (GoVal × Nat) → List (GoVal × Nat)
  | [] => [(v, 1)]
  | (k, c) :: rest => if k = v then (k, c + 1) :: rest else (k, c) :: bumpCount v rest

def entropyAgg.Add (a : entropyAgg) (e : Event) : entropyAgg :=
  match e.data.lookup a.field with
  | none => a
  | some v => { a with counts := bumpCount v a.counts, total := a.total + 1 }

/-- Model of `entropyAgg.Result`: Shannon entropy, `entropy -= p * math.Log2(p)`
per positive count. -/
noncomputable def entropyAgg.Result (a : entropyAgg) : ℝ :=
  if a.total = 0 then 0
  else
    a.counts.foldl
      (fun acc kv =>
        if 0 < kv.2 then
          acc - ((kv.2 : ℝ) / (a.total : ℝ)) * Real.logb 2 ((kv.2 : ℝ) / (a.total : ℝ))
        else acc)
      0

/-- Model of `uniqueRatioAgg`. -/
structure uniqueRatioAgg where
  field : String
  seen : List GoVal
  total : Nat

/-- Model of `UniqueRatio(field)` factory applied. -/
def UniqueRatio (field : String) : uniqueRatioAgg := ⟨field, [], 0⟩

def uniqueRatioAgg.Add (a : uniqueRatioAgg) (e : Event) : uniqueRatioAgg :=
  match e.data.lookup a.field with
  | none => a
  | some v =>
    { a with
      seen := if v ∈ a.seen then a.seen else v :: a.seen
      total := a.total + 1 }

def uniqueRatioAgg.Result (a : uniqueRatioAgg) : ℚ :=
  if a.total = 0 then 0 else (a.seen.length : ℚ) / (a.total : ℚ)

/-- Model of `timeSinceFirstAgg`. -/
structure timeSinceFirstAgg where
  firstTime : Int
  lastTime : Int

/-- Model of `TimeSinceFirst()` factory applied: zero-time trackers. -/
def TimeSinceFirst : timeSinceFirstAgg := ⟨0, 0⟩

def timeSinceFirstAgg.Add (a : timeSinceFirstAgg) (e : Event) : timeSinceFirstAgg :=
  { firstTime :=
      if a.firstTime = 0 ∨ e.timestamp < a.firstTime then e.timestamp else a.firstTime
    lastTime :=
      if a.lastTime = 0 ∨ a.lastTime < e.timestamp then e.timestamp else a.lastTime }

/-- Model of `timeSinceFirstAgg.Result`: the zero duration on an untouched tracker,
else `lastTime.Sub(firstTime)`. -/
def timeSinceFirstAgg.Result (a : timeSinceFirstAgg) : Int :=
  if a.firstTime = 0 then 0 else a.lastTime - a.firstTime

/-- Ascending insertion for `sort.Float64s`. -/
def insertSortedQ (x : ℚ) : List ℚ → List ℚ
  | [] => [x]
  | y :: ys => if x ≤ y then x :: y :: ys else y :: insertSortedQ x ys

/-- Model of `sort.Float64s`: ascending sort of the collected values. -/
def sortQ (l : List ℚ) : List ℚ := l.foldl (fun acc x => insertSortedQ x acc) []

/-- Go's `int(f)` conversion: truncation toward zero. -/
def goTrunc (q : ℚ) : Int := if q < 0 then -⌊-q⌋ else ⌊q⌋

/-- Model of `percentileAgg`. -/
structure percentileAgg where
  field : String
  p : ℚ
  values : List ℚ

/-- Model of `Percentile(field, p)` factory applied: no collected values. -/
def Percentile (field : String) (p : ℚ) : percentileAgg := ⟨field, p, []⟩

def percentileAgg.Add (a : percentileAgg) (e : Event) : percentileAgg :=
  match e.data.lookup a.field with
  | none => a
  | some v =>
    match toFloat64 v with
    | some f => { a with values := a.values ++ [f] }
    | none => a

/-- Model of `percentileAgg.Result`: nearest-rank on the ascending sort, index
`int(float64(n-1) * p)` clamped into range. -/
def percentileAgg.Result (a : percentileAgg) : ℚ :=
  if a.values = [] then 0
  else
    let sorted := sortQ a.values
    let index := goTrunc (((sorted.length : ℚ) - 1) * a.p)
    let index := if index < 0 then 0 else index
    let index := if (sorted.length : Int) ≤ index then (sorted.length : Int) - 1 else index
    sorted.getD index.toNat 0

/-- Model of `stdDevAgg`. -/
structure stdDevAgg where
  field : String
  values : List ℚ

/-- Model of `StandardDeviation(field)` factory applied. -/
def StandardDeviation (field : String) : stdDevAgg := ⟨field, []⟩

def stdDevAgg.Add (a : stdDevAgg) (e : Event) : stdDevAgg :=
  match e.data.lookup a.field with
  | none => a
  | some v =>
    match toFloat64 v with
    | some f => { a with values := a.values ++ [f] }
    | none => a

/-- Model of `stdDevAgg.Result`: population standard deviation (variance divided by
`n`), `math.Sqrt` at the end. -/
noncomputable def stdDevAgg.Result (a : stdDevAgg) : ℝ :=
  if a.values = [] then 0
  else
    let mean : ℚ := (a.values.foldl (· + ·) 0) / (a.values.length : ℚ)
    let variance : ℚ :=
      (a.values.foldl (fun acc v => acc + (v - mean) * (v - mean)) 0) / (a.values.length : ℚ)
    Real.sqrt (variance : ℝ)

/-- Model of `meanAgg`. -/
structure meanAgg where
  field : String
  sum : ℚ
  count : Nat

/-- Model of `Mean(field)` factory applied. -/
def Mean (field : String) : meanAgg := ⟨field, 0, 0⟩

def meanAgg.Add (a : meanAgg) (e : Event) : meanAgg :=
  match e.data.lookup a.field with
  | none => a
  | some v =>
    match toFloat64 v with
    | some f => { a with sum := a.sum + f, count := a.count + 1 }
    | none => a

def meanAgg.Result (a : meanAgg) : ℚ :=
  if a.count = 0 then 0 else a.sum / (a.count : ℚ)

/-- Earliest timestamp of a list (Go zero time for the empty list). -/
def tsMinList : List Int → Int
  | [] => 0
  | x :: xs => xs.foldl min x

/-- Latest timestamp of a list (Go zero time for the empty list). -/
def tsMaxList : List Int → Int
  | [] => 0
  | x :: xs => xs.foldl max x

/-- The velocity value described by the claim, stated in its words: zero on
no events or a zero window; the count over the window's minute-length when
all added events share one timestamp; otherwise the count over the span in
minutes between the earliest and the latest added timestamp.  Used as the
comparison target for `velocityAgg.Result`. -/
def velocityClaimedResult (w : Int) (tss : List Int) : ℚ :=
  if tss.length = 0 ∨ w = 0 then 0
  else if tsMinList tss = tsMaxList tss then
    (tss.length : ℚ) / ((w : ℚ) / (nsPerMinute : ℚ))
  else
    (tss.length : ℚ) / (((tsMaxList tss - tsMinList tss : Int) : ℚ) / (nsPerMinute : ℚ))

/-- The point-in-time projection of a log: only the events not `After` the
query instant.  `memGet` factors through it, so two logs with equal
projections are indistinguishable to `GetAt`. -/
def pastFilter (t : Int) (l : List Event) : List Event :=
  l.filter fun e => decide (e.timestamp ≤ t)

/-- Insert one extra `Push` call into a sequence of calls at position `i`
(appended at the end when `i` exceeds the length). -/
def insertAt (i : Nat) (c : List Event) (calls : List (List Event)) :
    List (List Event) :=
  match i, calls with
  | 0, l => c :: l
  | _ + 1, [] => [c]
  | n + 1, x :: xs => x :: insertAt n c xs

/-- A plain UTC event at instant `n` with an empty payload, for concrete
instances. -/
def evAt (n : Int) : Event := ⟨n, Loc.utc, []⟩

/-- An event whose timestamp location is not `time.UTC`. -/
def nonUtcEvent : Event := ⟨100, Loc.named "Local", []⟩

/-- A concrete feature counting its selected events over the lifetime
window, for concrete instances of the orchestrator theorems. -/
def countFeature : Feature Int where
  name := "count"
  window := fun evs t => lifetimeSelect evs t
  St := Int
  init := 0
  add := fun s _ => s + 1
  result := fun s => s

/-! ## General list lemmas -/

theorem take_findIdx_eq_takeWhile {α : Type} (p : α → Bool) (l : List α) :
    l.take (l.findIdx p) = l.takeWhile (fun a => ! p a) := by
  induction l with
  | nil => rfl
  | cons x xs ih =>
    rw [List.findIdx_cons]
    by_cases h : p x
    · simp [h]
    · simp [h, List.take_succ_cons, ih]

theorem drop_findIdx_eq_dropWhile {α : Type} (p : α → Bool) (l : List α) :
    l.drop (l.findIdx p) = l.dropWhile (fun a => ! p a) := by
  induction l with
  | nil => rfl
  | cons x xs ih =>
    rw [List.findIdx_cons]
    by_cases h : p x
    · simp [h]
    · simp [h, ih]

theorem dropWhile_suffix_mono {α : Type} {p q : α → Bool} (l : List α)
    (hpq : ∀ a, q a = true → p a = true) :
    l.dropWhile p <:+ l.dropWhile q := by
  induction l with
  | nil => simp
  | cons x xs ih =>
    by_cases hq : q x
    · rw [List.dropWhile_cons_of_pos hq, List.dropWhile_cons_of_pos (hpq x hq)]
      exact ih
    · rw [List.dropWhile_cons_of_neg hq]
      exact List.dropWhile_suffix p

theorem not_decide_le {c x : Int} : (! decide (c ≤ x)) = decide (x < c) := by
  rcases lt_or_le x c with h | h
  · simp [h, not_le.mpr h]
  · simp [h, not_lt.mpr h]

theorem not_decide_lt {c x : Int} : (! decide (c < x)) = decide (x ≤ c) := by
  rcases le_or_lt x c with h | h
  · simp [h, not_lt.mpr h]
  · simp [h, not_le.mpr h]

theorem tsSorted_cons {x : Event} {xs : List Event} :
    TsSorted (x :: xs) ↔ (∀ b ∈ xs, x.timestamp ≤ b.timestamp) ∧ TsSorted xs :=
  List.pairwise_cons

theorem dropWhile_lt_eq_filter {c : Int} {l : List Event} (h : TsSorted l) :
    l.dropWhile (fun e => decide (e.timestamp < c)) =
      l.filter (fun e => decide (c ≤ e.timestamp)) := by
  induction l with
  | nil => rfl
  | cons x xs ih =>
    rw [tsSorted_cons] at h
    by_cases hx : x.timestamp < c
    · rw [List.dropWhile_cons_of_pos (by simpa using hx),
        List.filter_cons_of_neg (by simpa using not_le.mpr hx)]
      exact ih h.2
    · rw [List.dropWhile_cons_of_neg (by simpa using hx),
        List.filter_cons_of_pos (by simpa using not_lt.mp hx)]
      congr 1
      symm
      rw [List.filter_eq_self]
      intro e he
      simpa using le_trans (not_lt.mp hx) (h.1 e he)

theorem takeWhile_le_eq_filter {c : Int} {l : List Event} (h : TsSorted l) :
    l.takeWhile (fun e => decide (e.timestamp ≤ c)) =
      l.filter (fun e => decide (e.timestamp ≤ c)) := by
  induction l with
  | nil => rfl
  | cons x xs ih =>
    rw [tsSorted_cons] at h
    by_cases hx : x.timestamp ≤ c
    · rw [List.takeWhile_cons_of_pos (by simpa using hx),
        List.filter_cons_of_pos (by simpa using hx), ih h.2]
    · rw [List.takeWhile_cons_of_neg (by simpa using hx),
        List.filter_cons_of_neg (by simpa using hx)]
      symm
      rw [List.filter_eq_nil_iff]
      intro e he
      simp only [decide_eq_true_eq]
      intro hle
      exact hx (le_trans (h.1 e he) hle)

theorem dropWhile_gt_eq_filter_desc {t : Int} {m : List Event}
    (h : m.Pairwise fun a b => b.timestamp ≤ a.timestamp) :
    m.dropWhile (fun e => decide (t < e.timestamp)) =
      m.filter (fun e => decide (e.timestamp ≤ t)) := by
  induction m with
  | nil => rfl
  | cons x xs ih =>
    rw [List.pairwise_cons] at h
    by_cases hx : t < x.timestamp
    · rw [List.dropWhile_cons_of_pos (by simpa using hx),
        List.filter_cons_of_neg (by simpa using not_le.mpr hx)]
      exact ih h.2
    · rw [List.dropWhile_cons_of_neg (by simpa using hx),
        List.filter_cons_of_pos (by simpa using not_lt.mp hx)]
      congr 1
      symm
      rw [List.filter_eq_self]
      intro e he
      simpa using le_trans (h.1 e he) (not_lt.mp hx)

/-! ## Window and eviction lemmas -/

theorem slidingLoop_eq_dropWhile (c : Int) (l : List Event) :
    slidingLoop c l = l.dropWhile (fun e => decide (e.timestamp < c)) := by
  induction l with
  | nil => rfl
  | cons e rest ih =>
    unfold slidingLoop
    by_cases h : c ≤ e.timestamp
    · rw [if_pos h, List.dropWhile_cons_of_neg (by simpa using not_lt.mpr h)]
    · rw [if_neg h, List.dropWhile_cons_of_pos (by simpa using not_le.mp h), ih]

theorem lifetimeScan_eq_dropWhile (t : Int) (m : List Event) :
    lifetimeScan t m = (m.dropWhile fun e => decide (t < e.timestamp)).reverse := by
  induction m with
  | nil => rfl
  | cons e rest ih =>
    unfold lifetimeScan
    by_cases h : e.timestamp ≤ t
    · rw [if_pos h, List.dropWhile_cons_of_neg (by simpa using not_lt.mpr h)]
    · rw [if_neg h, List.dropWhile_cons_of_pos (by simpa using not_le.mp h), ih]

theorem memEvict_eq_dropWhile (c : Int) (l : List Event) :
    memEvict c l = l.dropWhile (fun e => decide (e.timestamp < c)) := by
  have key : l.drop (l.findIdx fun e => decide (c ≤ e.timestamp)) =
      l.dropWhile fun e => decide (e.timestamp < c) := by
    rw [drop_findIdx_eq_dropWhile]
    congr 1
    funext e
    exact not_decide_le
  unfold memEvict
  by_cases h0 : 0 < l.findIdx fun e => decide (c ≤ e.timestamp)
  · rw [if_pos h0]
    exact key
  · rw [if_neg h0]
    rw [← key, Nat.eq_zero_of_not_pos h0, List.drop_zero]

/-! ## Claim theorems: windows and eviction -/

/-- C6: on a sorted input, `slidingWindow.Select` returns exactly the
suffix of events with timestamp within `duration` of the reference
instant, the lower boundary `t - d` inclusive; the empty input yields the
empty output. -/
theorem sliding_select_spec {d t : Int} {l : List Event} (h : TsSorted l) :
    slidingSelect d l t = l.filter (fun e => decide (t - d ≤ e.timestamp)) ∧
      slidingSelect d l t <:+ l ∧
      slidingSelect d ([] : List Event) t = [] := by
  refine ⟨?_, ?_, rfl⟩
  · rw [slidingSelect, slidingLoop_eq_dropWhile]
    exact dropWhile_lt_eq_filter h
  · rw [slidingSelect, slidingLoop_eq_dropWhile]
    exact List.dropWhile_suffix _

/-- Witness for C6 at a concrete sorted log, with an event exactly on the
inclusive lower boundary `11 - 4 = 7`. -/
theorem sliding_select_spec_witness :
    TsSorted [evAt 3, evAt 7, evAt 9] ∧
      (slidingSelect 4 [evAt 3, evAt 7, evAt 9] 11 =
          [evAt 3, evAt 7, evAt 9].filter (fun e => decide (11 - 4 ≤ e.timestamp)) ∧
        slidingSelect 4 [evAt 3, evAt 7, evAt 9] 11 <:+ [evAt 3, evAt 7, evAt 9] ∧
        slidingSelect 4 ([] : List Event) 11 = []) :=
  ⟨by decide, sliding_select_spec (by decide)⟩

/-- C7: on a sorted input both forms of `lifetimeWindow.Select` — the
binary-search form and the backward-scan form — return exactly the prefix
of events with timestamp not after the reference instant (the upper
boundary inclusive), so the two implementations agree. -/
theorem lifetime_select_spec {t : Int} {l : List Event} (h : TsSorted l) :
    lifetimeSelect l t = l.filter (fun e => decide (e.timestamp ≤ t)) ∧
      lifetimeSelect2 l t = l.filter (fun e => decide (e.timestamp ≤ t)) := by
  constructor
  · rw [lifetimeSelect, take_findIdx_eq_takeWhile]
    have hp : (fun e : Event => ! decide (t < e.timestamp)) =
        fun e : Event => decide (e.timestamp ≤ t) := by
      funext e
      exact not_decide_lt
    rw [hp]
    exact takeWhile_le_eq_filter h
  · rw [lifetimeSelect2, lifetimeScan_eq_dropWhile,
      dropWhile_gt_eq_filter_desc (List.pairwise_reverse.mpr h),
      List.filter_reverse, List.reverse_reverse]

/-- Witness for C7 at a concrete sorted log, with an event exactly at the
inclusive upper boundary. -/
theorem lifetime_select_spec_witness :
    TsSorted [evAt 2, evAt 5, evAt 8] ∧
      (lifetimeSelect [evAt 2, evAt 5, evAt 8] 5 =
          [evAt 2, evAt 5, evAt 8].filter (fun e => decide (e.timestamp ≤ 5)) ∧
        lifetimeSelect2 [evAt 2, evAt 5, evAt 8] 5 =
          [evAt 2, evAt 5, evAt 8].filter (fun e => decide (e.timestamp ≤ 5))) :=
  ⟨by decide, lifetime_select_spec (by decide)⟩

/-- C8: for a sorted input, a fixed reference instant and durations
`d1 ≤ d2`, the events selected by `Sliding(d1)` are a suffix of — hence a
subset of — those selected by `Sliding(d2)`. -/
theorem sliding_window_monotone {d1 d2 t : Int} {l : List Event}
    (h : TsSorted l) (hd : d1 ≤ d2) :
    slidingSelect d1 l t <:+ slidingSelect d2 l t ∧
      ∀ e ∈ slidingSelect d1 l t, e ∈ slidingSelect d2 l t := by
  have hs : slidingSelect d1 l t <:+ slidingSelect d2 l t := by
    rw [slidingSelect, slidingSelect, slidingLoop_eq_dropWhile, slidingLoop_eq_dropWhile]
    apply dropWhile_suffix_mono
    intro a ha
    simp only [decide_eq_true_eq] at ha ⊢
    omega
  exact ⟨hs, fun e he => hs.subset he⟩

/-- Witness for C8 at a concrete sorted log and durations `2 ≤ 6`. -/
theorem sliding_window_monotone_witness :
    (TsSorted [evAt 4, evAt 8, evAt 10] ∧ (2 : Int) ≤ 6) ∧
      (slidingSelect 2 [evAt 4, evAt 8, evAt 10] 10 <:+
          slidingSelect 6 [evAt 4, evAt 8, evAt 10] 10 ∧
        ∀ e ∈ slidingSelect 2 [evAt 4, evAt 8, evAt 10] 10,
          e ∈ slidingSelect 6 [evAt 4, evAt 8, evAt 10] 10) :=
  ⟨⟨by decide, by decide⟩, sliding_window_monotone (by decide) (by decide)⟩

/-- C3: on a sorted log, the per-entity trim of `Evict` with cutoff `c`
retains exactly the events with timestamp at least `c`; what is removed is
precisely the leading run of events with timestamp strictly below `c`. -/
theorem evict_exact {c : Int} {l : List Event} (h : TsSorted l) :
    memEvict c l = l.filter (fun e => decide (c ≤ e.timestamp)) ∧
      l = l.takeWhile (fun e => decide (e.timestamp < c)) ++ memEvict c l ∧
      ∀ e ∈ l.takeWhile (fun e => decide (e.timestamp < c)), e.timestamp < c := by
  refine ⟨?_, ?_, ?_⟩
  · rw [memEvict_eq_dropWhile]
    exact dropWhile_lt_eq_filter h
  · rw [memEvict_eq_dropWhile]
    exact (List.takeWhile_append_dropWhile _ _).symm
  · intro e he
    simpa using List.mem_takeWhile_imp he

/-- Witness for C3 at a concrete sorted log with an event exactly at the
cutoff (retained) and events below it (removed). -/
theorem evict_exact_witness :
    TsSorted [evAt 1, evAt 4, evAt 6, evAt 9] ∧
      (memEvict 6 [evAt 1, evAt 4, evAt 6, evAt 9] =
          [evAt 1, evAt 4, evAt 6, evAt 9].filter (fun e => decide (6 ≤ e.timestamp)) ∧
        [evAt 1, evAt 4, evAt 6, evAt 9] =
          [evAt 1, evAt 4, evAt 6, evAt 9].takeWhile (fun e => decide (e.timestamp < 6)) ++
            memEvict 6 [evAt 1, evAt 4, evAt 6, evAt 9] ∧
        ∀ e ∈ [evAt 1, evAt 4, evAt 6, evAt 9].takeWhile (fun e => decide (e.timestamp < 6)),
          e.timestamp < 6) :=
  ⟨by decide, evict_exact (by decide)⟩

/-! ## Claim theorems: the two TTL-filter variants -/

/-- C4 counterexample: with TTL 3 and query instant 10 the cutoff is 7, and
an event exactly at the cutoff is dropped by variant 1's storage-side
filter (which keeps only timestamps strictly after the cutoff) but kept by
variant 2's orchestrator-side filter (which keeps timestamps at or after
the cutoff), so the two filters are not equivalent. -/
theorem ttl_filter_variants_differ_at_cutoff :
    memGetKeep 3 10 (evAt 7) = false ∧ storeGetAtKeep 3 10 (evAt 7) = true := by
  decide

/-- C4 amended: for every event whose timestamp differs from `t - ttl` the
two filters agree, so the two variants' `GetAt` inputs coincide whenever no
event lies exactly on the cutoff. -/
theorem ttl_filter_variants_agree_off_cutoff (ttl t : Int) (l : List Event)
    (h : ∀ e ∈ l, e.timestamp ≠ t - ttl) :
    l.filter (memGetKeep ttl t) = l.filter (storeGetAtKeep ttl t) := by
  apply List.filter_congr
  intro e he
  unfold memGetKeep storeGetAtKeep
  congr 1
  by_cases h0 : ttlCutoff ttl t = 0
  · simp [h0]
  · have hpos : 0 < ttl := by
      by_contra hc
      exact h0 (by simp [ttlCutoff, hc])
    have hcut : ttlCutoff ttl t = t - ttl := by simp [ttlCutoff, hpos]
    have hne : e.timestamp ≠ t - ttl := h e he
    congr 1
    rw [decide_eq_decide, hcut]
    constructor
    · exact le_of_lt
    · intro hle
      rcases lt_or_eq_of_le hle with hlt | heq
      · exact hlt
      · exact absurd heq.symm hne

/-- Witness for C4's amended equivalence at a concrete log with events on
both sides of — but not exactly at — the cutoff `10 - 3 = 7`. -/
theorem ttl_filter_variants_agree_off_cutoff_witness :
    (∀ e ∈ [evAt 5, evAt 8, evAt 12], e.timestamp ≠ 10 - 3) ∧
      [evAt 5, evAt 8, evAt 12].filter (memGetKeep 3 10) =
        [evAt 5, evAt 8, evAt 12].filter (storeGetAtKeep 3 10) :=
  ⟨by decide, ttl_filter_variants_agree_off_cutoff 3 10 _ (by decide)⟩

/-! ## Claim theorems: aggregator zero-input defaults -/

/-- C5: every built-in aggregator's `Result()` on a fresh instance with no
`Add` calls returns its documented default: `Count` the integer 0;
`Sum`, `Min`, `Max`, `Mean`, `Velocity`, `Entropy`, `UniqueRatio`,
`Percentile` and `StandardDeviation` the floating 0.0; `Last` nil;
`CountDistinct` 0; `TimeSinceFirst` the zero duration. -/
theorem zero_input_defaults (field : String) (w : Int) (p : ℚ) :
    Count.Result = 0 ∧
      (sumAgg.new field).Result = 0 ∧
      (minAgg.new field).Result = 0 ∧
      (maxAgg.new field).Result = 0 ∧
      (Mean field).Result = 0 ∧
      (Velocity w).Result = 0 ∧
      (Entropy field).Result = 0 ∧
      (UniqueRatio field).Result = 0 ∧
      (Percentile field p).Result = 0 ∧
      (StandardDeviation field).Result = 0 ∧
      (Last field).Result = none ∧
      (CountDistinct field).Result = 0 ∧
      TimeSinceFirst.Result = 0 :=
  ⟨rfl, rfl, rfl, rfl, rfl, rfl, rfl, rfl, rfl, rfl, rfl, rfl, rfl⟩

/-! ## Claim theorems: sort invariant -/

theorem mem_insertByTs {e x : Event} {l : List Event} :
    x ∈ insertByTs e l ↔ x = e ∨ x ∈ l := by
  induction l with
  | nil => simp [insertByTs]
  | cons y ys ih =>
    unfold insertByTs
    by_cases h : e.timestamp < y.timestamp
    · rw [if_pos h]
      simp only [List.mem_cons]
    · rw [if_neg h]
      simp only [List.mem_cons, ih]
      tauto

theorem tsSorted_insertByTs {e : Event} {l : List Event} (h : TsSorted l) :
    TsSorted (insertByTs e l) := by
  induction l with
  | nil => simp [insertByTs]
  | cons y ys ih =>
    rw [tsSorted_cons] at h
    unfold insertByTs
    by_cases hc : e.timestamp < y.timestamp
    · rw [if_pos hc, tsSorted_cons]
      refine ⟨?_, tsSorted_cons.mpr h⟩
      intro b hb
      rcases List.mem_cons.mp hb with rfl | hbys
      · exact le_of_lt hc
      · exact le_trans (le_of_lt hc) (h.1 b hbys)
    · rw [if_neg hc, tsSorted_cons]
      refine ⟨?_, ih h.2⟩
      intro b hb
      rcases mem_insertByTs.mp hb with rfl | hbys
      · exact not_lt.mp hc
      · exact h.1 b hbys

theorem tsSorted_foldl_insert (m : List Event) :
    ∀ acc : List Event, TsSorted acc →
      TsSorted (m.foldl (fun acc e => insertByTs e acc) acc) := by
  induction m with
  | nil => exact fun _ h => h
  | cons x xs ih => exact fun acc h => ih _ (tsSorted_insertByTs h)

theorem tsSorted_sortByTs (l : List Event) : TsSorted (sortByTs l) :=
  tsSorted_foldl_insert l [] List.Pairwise.nil

theorem tsSorted_memPushCall {log : List Event} (c : List Event) (h : TsSorted log) :
    TsSorted (memPushCall c log) := by
  match c with
  | [e] => exact tsSorted_insertByTs h
  | [] => exact tsSorted_sortByTs _
  | e1 :: e2 :: rest => exact tsSorted_sortByTs _

theorem tsSorted_foldl_calls (calls : List (List Event)) :
    ∀ log, TsSorted log →
      TsSorted (calls.foldl (fun log c => memPushCall c log) log) := by
  induction calls with
  | nil => exact fun _ h => h
  | cons c cs ih => exact fun log h => ih _ (tsSorted_memPushCall c h)

/-- C2: after any sequence of `Push` calls to one entity — single events
inserted by binary search, batches appended then fully sorted — the
per-entity log is in non-decreasing timestamp order, and so is the event
slice a subsequent `Get` returns. -/
theorem push_sort_invariant (calls : List (List Event)) (ttl t : Int) :
    TsSorted (applyCalls calls) ∧ TsSorted (memGet ttl t (applyCalls calls)) := by
  have h := tsSorted_foldl_calls calls [] List.Pairwise.nil
  exact ⟨h, List.Pairwise.sublist (List.filter_sublist _) h⟩

/-! ## Claim theorems: push validation -/

/-- C9: `Store.Push` validates the whole batch before touching storage: if
some event's timestamp location is not UTC it returns a validation error
and the backend state is unchanged (no partial insertion); if every
event's timestamp is UTC the full batch is delegated to the storage
`Push`. -/
theorem push_validation_atomic (σ : GoState) (id : String) (events : List Event) :
    ((∃ e ∈ events, e.loc ≠ Loc.utc) →
        (storePush σ id events).1.isSome = true ∧ (storePush σ id events).2 = σ) ∧
      ((∀ e ∈ events, e.loc = Loc.utc) →
        storePush σ id events = (none, memPushState σ id events)) := by
  constructor
  · rintro ⟨e, he, hne⟩
    have hsome : (events.findIdx? fun e => ! validateEvent e).isSome = true := by
      rw [List.findIdx?_isSome]
      exact List.any_eq_true.mpr ⟨e, he, by simp [validateEvent, hne]⟩
    rcases heq : events.findIdx? fun e => ! validateEvent e with _ | i
    · rw [heq] at hsome
      simp at hsome
    · unfold storePush
      rw [heq]
      exact ⟨rfl, rfl⟩
  · intro hall
    have hnone : (events.findIdx? fun e => ! validateEvent e) = none := by
      rw [List.findIdx?_eq_none_iff]
      intro x hx
      simp [validateEvent, hall x hx]
    unfold storePush
    rw [hnone]

/-- Witness for C9: a non-UTC event is rejected with the state unchanged,
and an all-UTC batch is delegated to storage. -/
theorem push_validation_atomic_witness :
    ((∃ e ∈ [nonUtcEvent], e.loc ≠ Loc.utc) ∧
        (storePush emptyState "u" [nonUtcEvent]).1.isSome = true ∧
        (storePush emptyState "u" [nonUtcEvent]).2 = emptyState) ∧
      ((∀ e ∈ [evAt 1], e.loc = Loc.utc) ∧
        storePush emptyState "u" [evAt 1] = (none, memPushState emptyState "u" [evAt 1])) :=
  ⟨⟨⟨nonUtcEvent, by decide, by decide⟩,
      (push_validation_atomic emptyState "u" [nonUtcEvent]).1
        ⟨nonUtcEvent, by decide, by decide⟩⟩,
    ⟨by decide, (push_validation_atomic emptyState "u" [evAt 1]).2 (by decide)⟩⟩

/-! ## Claim theorems: velocity division safety -/

theorem foldl_min_le_self (xs : List Int) : ∀ x : Int, xs.foldl min x ≤ x := by
  induction xs with
  | nil => exact fun x => le_refl x
  | cons y ys ih => exact fun x => le_trans (ih (min x y)) (min_le_left x y)

theorem self_le_foldl_max (xs : List Int) : ∀ x : Int, x ≤ xs.foldl max x := by
  induction xs with
  | nil => exact fun x => le_refl x
  | cons y ys ih => exact fun x => le_trans (le_max_left x y) (ih (max x y))

theorem foldl_min_mem (xs : List Int) : ∀ x : Int, xs.foldl min x = x ∨ xs.foldl min x ∈ xs := by
  induction xs with
  | nil => exact fun _ => Or.inl rfl
  | cons y ys ih =>
    intro x
    rw [List.foldl_cons]
    rcases ih (min x y) with h1 | h1
    · rcases le_total x y with hxy | hxy
      · exact Or.inl (by rw [h1, min_eq_left hxy])
      · exact Or.inr (by rw [h1, min_eq_right hxy]; exact List.mem_cons_self y ys)
    · exact Or.inr (List.mem_cons_of_mem y h1)

theorem foldl_max_mem (xs : List Int) : ∀ x : Int, xs.foldl max x = x ∨ xs.foldl max x ∈ xs := by
  induction xs with
  | nil => exact fun _ => Or.inl rfl
  | cons y ys ih =>
    intro x
    rw [List.foldl_cons]
    rcases ih (max x y) with h1 | h1
    · rcases le_total x y with hxy | hxy
      · exact Or.inr (by rw [h1, max_eq_right hxy]; exact List.mem_cons_self y ys)
      · exact Or.inl (by rw [h1, max_eq_left hxy])
    · exact Or.inr (List.mem_cons_of_mem y h1)

theorem tsMinList_mem {tss : List Int} (h : tss ≠ []) : tsMinList tss ∈ tss := by
  cases tss with
  | nil => exact absurd rfl h
  | cons y ys =>
    simp only [tsMinList]
    rcases foldl_min_mem ys y with h1 | h1
    · rw [h1]; exact List.mem_cons_self y ys
    · exact List.mem_cons_of_mem y h1

theorem tsMaxList_mem {tss : List Int} (h : tss ≠ []) : tsMaxList tss ∈ tss := by
  cases tss with
  | nil => exact absurd rfl h
  | cons y ys =>
    simp only [tsMaxList]
    rcases foldl_max_mem ys y with h1 | h1
    · rw [h1]; exact List.mem_cons_self y ys
    · exact List.mem_cons_of_mem y h1

theorem tsMinList_ne_zero {tss : List Int} (h : ∀ x ∈ tss, x ≠ 0) (hne : tss ≠ []) :
    tsMinList tss ≠ 0 := h _ (tsMinList_mem hne)

theorem tsMaxList_ne_zero {tss : List Int} (h : ∀ x ∈ tss, x ≠ 0) (hne : tss ≠ []) :
    tsMaxList tss ≠ 0 := h _ (tsMaxList_mem hne)

theorem tsMinList_snoc (tss : List Int) (x : Int) :
    tsMinList (tss ++ [x]) = if tss = [] then x else min (tsMinList tss) x := by
  cases tss with
  | nil => rfl
  | cons y ys =>
    rw [if_neg (List.cons_ne_nil y ys)]
    simp [tsMinList, List.foldl_append]

theorem tsMaxList_snoc (tss : List Int) (x : Int) :
    tsMaxList (tss ++ [x]) = if tss = [] then x else max (tsMaxList tss) x := by
  cases tss with
  | nil => rfl
  | cons y ys =>
    rw [if_neg (List.cons_ne_nil y ys)]
    simp [tsMaxList, List.foldl_append]

theorem trackMin_snoc (tss : List Int) (z : Int) (h : ∀ x ∈ tss, x ≠ 0) :
    (if tsMinList tss = 0 ∨ z < tsMinList tss then z else tsMinList tss) =
      tsMinList (tss ++ [z]) := by
  rw [tsMinList_snoc]
  cases tss with
  | nil => simp [tsMinList]
  | cons y ys =>
    rw [if_neg (List.cons_ne_nil y ys)]
    have hm0 : tsMinList (y :: ys) ≠ 0 := tsMinList_ne_zero h (List.cons_ne_nil y ys)
    by_cases hz : z < tsMinList (y :: ys)
    · rw [if_pos (Or.inr hz), min_eq_right (le_of_lt hz)]
    · rw [if_neg (fun hor => hor.elim hm0 hz), min_eq_left (not_lt.mp hz)]

theorem trackMax_snoc (tss : List Int) (z : Int) (h : ∀ x ∈ tss, x ≠ 0) :
    (if tsMaxList tss = 0 ∨ tsMaxList tss < z then z else tsMaxList tss) =
      tsMaxList (tss ++ [z]) := by
  rw [tsMaxList_snoc]
  cases tss with
  | nil => simp [tsMaxList]
  | cons y ys =>
    rw [if_neg (List.cons_ne_nil y ys)]
    have hm0 : tsMaxList (y :: ys) ≠ 0 := tsMaxList_ne_zero h (List.cons_ne_nil y ys)
    by_cases hz : tsMaxList (y :: ys) < z
    · rw [if_pos (Or.inr hz), max_eq_right (le_of_lt hz)]
    · rw [if_neg (fun hor => hor.elim hm0 hz), max_eq_left (not_lt.mp hz)]

theorem velocity_fold_spec (w : Int) (evs : List Event)
    (h : ∀ e ∈ evs, e.timestamp ≠ 0) :
    (evs.foldl velocityAgg.Add (Velocity w)).count = (evs.length : Int) ∧
      (evs.foldl velocityAgg.Add (Velocity w)).window = w ∧
      (evs.foldl velocityAgg.Add (Velocity w)).firstTime =
        tsMinList (evs.map Event.timestamp) ∧
      (evs.foldl velocityAgg.Add (Velocity w)).lastTime =
        tsMaxList (evs.map Event.timestamp) := by
  induction evs using List.reverseRecOn with
  | nil => exact ⟨rfl, rfl, rfl, rfl⟩
  | append_singleton xs e ih =>
    have hxs : ∀ x ∈ xs, x.timestamp ≠ 0 := fun x hx => h x (List.mem_append_left _ hx)
    have hmapne : ∀ z ∈ xs.map Event.timestamp, z ≠ 0 := by
      intro z hz
      obtain ⟨x, hx, rfl⟩ := List.mem_map.mp hz
      exact hxs x hx
    obtain ⟨hc, hw, hf, hl⟩ := ih hxs
    rw [List.foldl_append, List.foldl_cons, List.foldl_nil, List.map_append]
    simp only [List.map_cons, List.map_nil]
    refine ⟨?_, ?_, ?_, ?_⟩
    · simp only [velocityAgg.Add, hc, List.length_append, List.length_cons,
        List.length_nil]
      push_cast
      ring
    · simpa only [velocityAgg.Add] using hw
    · simp only [velocityAgg.Add, hf]
      exact trackMin_snoc _ _ hmapne
    · simp only [velocityAgg.Add, hl]
      exact trackMax_snoc _ _ hmapne

/-- C10 amended: provided no added event carries the Go zero timestamp
(`time.Time{}.IsZero()`, which resets the first/last trackers),
`velocityAgg.Result` is total and never divides by zero: it returns 0 on no
events or a zero window, divides the count by the window's (nonzero)
minute-length when all added events share one timestamp, and otherwise
divides by the strictly positive span in minutes between the earliest and
latest added timestamps. -/
theorem velocity_result_safe (w : Int) (evs : List Event)
    (h : ∀ e ∈ evs, e.timestamp ≠ 0) :
    (evs.foldl velocityAgg.Add (Velocity w)).Result =
        velocityClaimedResult w (evs.map Event.timestamp) ∧
      (evs ≠ [] → w ≠ 0 →
        tsMinList (evs.map Event.timestamp) ≠ tsMaxList (evs.map Event.timestamp) →
        0 < tsMaxList (evs.map Event.timestamp) - tsMinList (evs.map Event.timestamp)) := by
  obtain ⟨hc, hw, hf, hl⟩ := velocity_fold_spec w evs h
  have hspan : evs ≠ [] →
      tsMinList (evs.map Event.timestamp) ≤ tsMaxList (evs.map Event.timestamp) := by
    intro hne
    cases evs with
    | nil => exact absurd rfl hne
    | cons x rest =>
      simp only [List.map_cons, tsMinList, tsMaxList]
      exact le_trans (foldl_min_le_self _ _) (self_le_foldl_max _ _)
  constructor
  · simp only [velocityAgg.Result, velocityClaimedResult]
    rw [hc, hw, hf, hl, List.length_map]
    by_cases hne : evs = []
    · subst hne
      simp [tsMinList, tsMaxList]
    · have hlen : evs.length ≠ 0 := fun h0 => hne (List.length_eq_zero.mp h0)
      have hlenI : (evs.length : Int) ≠ 0 := Int.natCast_ne_zero.mpr hlen
      by_cases hw0 : w = 0
      · rw [if_pos (Or.inr hw0), if_pos (Or.inr hw0)]
      · have hcond1 : ¬((evs.length : Int) = 0 ∨ w = 0) := by
          push_neg
          exact ⟨hlenI, hw0⟩
        have hcond2 : ¬(evs.length = 0 ∨ w = 0) := by
          push_neg
          exact ⟨hlen, hw0⟩
        rw [if_neg hcond1, if_neg hcond2]
        by_cases heq :
            tsMinList (evs.map Event.timestamp) = tsMaxList (evs.map Event.timestamp)
        · have hd0 : tsMaxList (evs.map Event.timestamp) -
              tsMinList (evs.map Event.timestamp) = 0 := by omega
          rw [if_pos hd0, if_pos heq]
          push_cast
          ring
        · have hd0 : tsMaxList (evs.map Event.timestamp) -
              tsMinList (evs.map Event.timestamp) ≠ 0 := by omega
          have hmin : ((tsMaxList (evs.map Event.timestamp) -
              tsMinList (evs.map Event.timestamp) : Int) : ℚ) / (nsPerMinute : ℚ) ≠ 0 := by
            apply div_ne_zero (Int.cast_ne_zero.mpr hd0)
            norm_num [nsPerMinute]
          rw [if_neg hd0, if_neg heq, if_neg hmin]
          push_cast
          ring
  · intro hne hw0 hmm
    have hle := hspan hne
    omega

/-- C10 counterexample: after `Add` calls at the Go zero instant and at
5ns, the zero timestamp has reset the first-time tracker, so both trackers
hold 5ns and `Result` takes the same-timestamp branch, returning
count/window-minutes = 2.0 for a one-minute window — although not all
added events share one timestamp, and the claimed division by the
earliest-to-latest span (5ns) would give 24000000000. -/
theorem velocity_result_deviates_on_zero_timestamp :
    ([evAt 0, evAt 5].foldl velocityAgg.Add (Velocity nsPerMinute)).Result = 2 ∧
      velocityClaimedResult nsPerMinute ([evAt 0, evAt 5].map Event.timestamp) =
        24000000000 ∧
      ([evAt 0, evAt 5].foldl velocityAgg.Add (Velocity nsPerMinute)).Result ≠
        velocityClaimedResult nsPerMinute ([evAt 0, evAt 5].map Event.timestamp) := by
  have hstate : [evAt 0, evAt 5].foldl velocityAgg.Add (Velocity nsPerMinute) =
      ⟨2, 60000000000, 5, 5⟩ := rfl
  have hmap : [evAt 0, evAt 5].map Event.timestamp = [0, 5] := rfl
  have hminv : tsMinList [0, 5] = 0 := by
    simp only [tsMinList, List.foldl_cons, List.foldl_nil]
    omega
  have hmaxv : tsMaxList [0, 5] = 5 := by
    simp only [tsMaxList, List.foldl_cons, List.foldl_nil]
    omega
  have p1 : ([evAt 0, evAt 5].foldl velocityAgg.Add (Velocity nsPerMinute)).Result = 2 := by
    rw [hstate]
    simp only [velocityAgg.Result]
    norm_num [nsPerMinute]
  have p2 : velocityClaimedResult nsPerMinute ([evAt 0, evAt 5].map Event.timestamp) =
      24000000000 := by
    rw [hmap]
    simp only [velocityClaimedResult, hminv, hmaxv]
    norm_num [nsPerMinute]
  refine ⟨p1, p2, ?_⟩
  rw [p1, p2]
  norm_num

/-- Witness for C10's amended theorem at two concrete nonzero-timestamp
events. -/
theorem velocity_result_safe_witness :
    (∀ e ∈ [evAt 2, evAt 7], e.timestamp ≠ 0) ∧
      (([evAt 2, evAt 7].foldl velocityAgg.Add (Velocity nsPerMinute)).Result =
          velocityClaimedResult nsPerMinute ([evAt 2, evAt 7].map Event.timestamp) ∧
        ([evAt 2, evAt 7] ≠ [] → nsPerMinute ≠ 0 →
          tsMinList ([evAt 2, evAt 7].map Event.timestamp) ≠
            tsMaxList ([evAt 2, evAt 7].map Event.timestamp) →
          0 < tsMaxList ([evAt 2, evAt 7].map Event.timestamp) -
            tsMinList ([evAt 2, evAt 7].map Event.timestamp))) :=
  ⟨by decide, velocity_result_safe nsPerMinute [evAt 2, evAt 7] (by decide)⟩

/-! ## Claim theorems: no future leakage -/

theorem insertByTs_eq_cons {e : Event} {m : List Event}
    (h : ∀ y ∈ m, e.timestamp < y.timestamp) :
    insertByTs e m = e :: m := by
  cases m with
  | nil => rfl
  | cons y ys =>
    unfold insertByTs
    rw [if_pos (h y (List.mem_cons_self y ys))]

theorem pastFilter_insertByTs {t : Int} {e : Event} {l : List Event} (h : TsSorted l) :
    pastFilter t (insertByTs e l) =
      if e.timestamp ≤ t then insertByTs e (pastFilter t l) else pastFilter t l := by
  induction l with
  | nil =>
    by_cases he : e.timestamp ≤ t <;> simp [insertByTs, pastFilter, he]
  | cons x xs ih =>
    rw [tsSorted_cons] at h
    simp only [insertByTs]
    by_cases hc : e.timestamp < x.timestamp
    · rw [if_pos hc]
      by_cases he : e.timestamp ≤ t
      · rw [if_pos he]
        have hfront : insertByTs e (pastFilter t (x :: xs)) =
            e :: pastFilter t (x :: xs) := by
          apply insertByTs_eq_cons
          intro y hy
          have hy2 := (List.mem_filter.mp hy).1
          rcases List.mem_cons.mp hy2 with rfl | hyxs
          · exact hc
          · exact lt_of_lt_of_le hc (h.1 y hyxs)
        rw [hfront]
        simp [pastFilter, List.filter_cons, he]
      · rw [if_neg he]
        simp [pastFilter, List.filter_cons, he]
    · rw [if_neg hc]
      have hstep : ∀ M : List Event, pastFilter t (x :: M) =
          if x.timestamp ≤ t then x :: pastFilter t M else pastFilter t M := by
        intro M
        by_cases hx : x.timestamp ≤ t <;> simp [pastFilter, List.filter_cons, hx]
      have hins : insertByTs e (x :: pastFilter t xs) =
          x :: insertByTs e (pastFilter t xs) := by
        simp only [insertByTs]
        rw [if_neg hc]
      rw [hstep, hstep, ih h.2]
      by_cases hx : x.timestamp ≤ t <;> by_cases he : e.timestamp ≤ t
      · simp [hx, he, hins]
      · simp [hx, he]
      · exact absurd (le_trans (not_lt.mp hc) he) hx
      · simp [hx, he]

theorem pastFilter_foldl_insert {t : Int} (m : List Event) :
    ∀ acc : List Event, TsSorted acc →
      pastFilter t (m.foldl (fun acc e => insertByTs e acc) acc) =
        (pastFilter t m).foldl (fun acc e => insertByTs e acc) (pastFilter t acc) := by
  induction m with
  | nil => exact fun _ _ => rfl
  | cons x xs ih =>
    intro acc h
    rw [List.foldl_cons, ih _ (tsSorted_insertByTs h), pastFilter_insertByTs h]
    by_cases hx : x.timestamp ≤ t
    · rw [if_pos hx]
      have hx2 : pastFilter t (x :: xs) = x :: pastFilter t xs := by
        simp [pastFilter, List.filter_cons, hx]
      rw [hx2, List.foldl_cons]
    · rw [if_neg hx]
      have hx2 : pastFilter t (x :: xs) = pastFilter t xs := by
        simp [pastFilter, List.filter_cons, hx]
      rw [hx2]

theorem pastFilter_sortByTs {t : Int} (m : List Event) :
    pastFilter t (sortByTs m) = sortByTs (pastFilter t m) := by
  unfold sortByTs
  rw [pastFilter_foldl_insert m [] List.Pairwise.nil]
  rfl

theorem pastFilter_memPushCall_congr {t : Int} {L1 L2 : List Event} (c : List Event)
    (h1 : TsSorted L1) (h2 : TsSorted L2)
    (hf : pastFilter t L1 = pastFilter t L2) :
    pastFilter t (memPushCall c L1) = pastFilter t (memPushCall c L2) := by
  match c with
  | [e] =>
    show pastFilter t (insertByTs e L1) = pastFilter t (insertByTs e L2)
    rw [pastFilter_insertByTs h1, pastFilter_insertByTs h2, hf]
  | [] =>
    show pastFilter t (sortByTs (L1 ++ [])) = pastFilter t (sortByTs (L2 ++ []))
    rw [pastFilter_sortByTs, pastFilter_sortByTs]
    unfold pastFilter at hf ⊢
    rw [List.filter_append, List.filter_append, hf]
  | e1 :: e2 :: rest =>
    show pastFilter t (sortByTs (L1 ++ e1 :: e2 :: rest)) =
      pastFilter t (sortByTs (L2 ++ e1 :: e2 :: rest))
    rw [pastFilter_sortByTs, pastFilter_sortByTs]
    unfold pastFilter at hf ⊢
    rw [List.filter_append, List.filter_append, hf]

theorem pastFilter_foldl_calls_congr {t : Int} (post : List (List Event)) :
    ∀ L1 L2, TsSorted L1 → TsSorted L2 →
      pastFilter t L1 = pastFilter t L2 →
      pastFilter t (post.foldl (fun log c => memPushCall c log) L1) =
        pastFilter t (post.foldl (fun log c => memPushCall c log) L2) := by
  induction post with
  | nil => exact fun _ _ _ _ hf => hf
  | cons c cs ih =>
    intro L1 L2 h1 h2 hf
    rw [List.foldl_cons, List.foldl_cons]
    exact ih _ _ (tsSorted_memPushCall c h1) (tsSorted_memPushCall c h2)
      (pastFilter_memPushCall_congr c h1 h2 hf)

theorem pastFilter_insertAt_future {t : Int} {e : Event} (hfut : ¬ e.timestamp ≤ t) :
    ∀ (calls : List (List Event)) (i : Nat) (L : List Event), TsSorted L →
      pastFilter t ((insertAt i [e] calls).foldl (fun log c => memPushCall c log) L) =
        pastFilter t (calls.foldl (fun log c => memPushCall c log) L) := by
  intro calls
  induction calls with
  | nil =>
    intro i L hL
    have hi : insertAt i [e] [] = [[e]] := by
      cases i <;> rfl
    rw [hi]
    show pastFilter t (insertByTs e L) = pastFilter t L
    rw [pastFilter_insertByTs hL, if_neg hfut]
  | cons c cs ih =>
    intro i L hL
    cases i with
    | zero =>
      show pastFilter t (([e] :: c :: cs).foldl (fun log c => memPushCall c log) L) = _
      rw [List.foldl_cons]
      apply pastFilter_foldl_calls_congr (c :: cs) _ _ (tsSorted_insertByTs hL) hL
      rw [pastFilter_insertByTs hL, if_neg hfut]
    | succ n =>
      show pastFilter t ((c :: insertAt n [e] cs).foldl (fun log c => memPushCall c log) L) = _
      rw [List.foldl_cons, List.foldl_cons]
      exact ih n _ (tsSorted_memPushCall c hL)

theorem memGet_eq_filter_pastFilter (ttl t : Int) (l : List Event) :
    memGet ttl t l = (pastFilter t l).filter
      (fun e => decide (ttlCutoff ttl t = 0) || decide (ttlCutoff ttl t < e.timestamp)) := by
  unfold memGet pastFilter memGetKeep
  rw [List.filter_filter]
  apply List.filter_congr
  intro a _
  exact Bool.and_comm _ _

/-- C1: point-in-time correctness of the in-memory configuration: for every
sequence of Push calls, every query instant `t`, every TTL and every
feature configuration, pushing one extra event timestamped after `t` — at
any position in the sequence of calls — leaves the `GetAt` result
unchanged. -/
theorem getAt_unaffected_by_future_event {V : Type} (fs : List (Feature V))
    (ttl : Int) (calls : List (List Event)) (i : Nat) (e : Event) (t : Int)
    (h : t < e.timestamp) :
    getAtValues fs ttl (applyCalls (insertAt i [e] calls)) t =
      getAtValues fs ttl (applyCalls calls) t := by
  have hπ : pastFilter t (applyCalls (insertAt i [e] calls)) =
      pastFilter t (applyCalls calls) :=
    pastFilter_insertAt_future (not_le.mpr h) calls i [] List.Pairwise.nil
  have hget : memGet ttl t (applyCalls (insertAt i [e] calls)) =
      memGet ttl t (applyCalls calls) := by
    rw [memGet_eq_filter_pastFilter, memGet_eq_filter_pastFilter, hπ]
  unfold getAtValues
  rw [hget]

/-- Witness for C1: inserting a future event (timestamp 5, query instant 3)
between two push calls leaves the count feature's GetAt result unchanged. -/
theorem getAt_unaffected_by_future_event_witness :
    ((3 : Int) < (evAt 5).timestamp) ∧
      getAtValues [countFeature] 0 (applyCalls (insertAt 1 [evAt 5] [[evAt 1], [evAt 2]])) 3 =
        getAtValues [countFeature] 0 (applyCalls [[evAt 1], [evAt 2]]) 3 :=
  ⟨by decide,
    getAt_unaffected_by_future_event [countFeature] 0 [[evAt 1], [evAt 2]] 1 (evAt 5) 3
      (by decide)⟩
